import Mathlib

/-!
Verification of the chunked-storage client (`StorageClient.py`).

The client is embedded shallowly:

* The local file system is an association list `FS` mapping a path (a
  `String`) to the file's byte contents (a `List Nat`).  `os.path.exists`
  becomes `fsMem`, opening a file for reading becomes `fsLookup`, and
  writing (create-or-truncate) becomes `fsSet`.
* I/O exceptions and network results are supplied by explicit oracle
  parameters: a fault oracle says at which operation an exception is
  raised (and with which message), and response oracles model `r.json()`
  and HTTP payloads.  A Python function that can let an exception escape
  is embedded with result type `Except String _`, where `Except.error`
  is an uncaught exception propagating to the caller.
* Pure helpers (`basename` for `os.path.basename`, `natStr` for the
  decimal rendering used by the f-strings, `beforeFirstDot` for
  `file_name.split(".")[0]`) are written as structurally recursive
  functions so that concrete runs reduce inside the kernel.
-/

namespace StorageClient

/-- File contents: a sequence of bytes (each byte a `Nat`). -/
abbrev Bytes := List Nat

/-- The local file system: paths with their contents, in creation order. -/
abbrev FS := List (String × Bytes)

/-- Reading a file: the contents stored at `path`, if the file exists. -/
def fsLookup (fs : FS) (path : String) : Option Bytes :=
  match fs with
  | [] => none
  | e :: rest => if e.1 = path then some e.2 else fsLookup rest path

/-- `os.path.exists`: whether a file at `path` exists. -/
def fsMem (fs : FS) (path : String) : Bool :=
  match fs with
  | [] => false
  | e :: rest => e.1 = path || fsMem rest path

/-- Writing a file (`open(path, "wb")` followed by writes): replaces the
contents if the path exists, otherwise creates the file. -/
def fsSet (fs : FS) (path : String) (v : Bytes) : FS :=
  match fs with
  | [] => [(path, v)]
  | e :: rest => if e.1 = path then (path, v) :: rest else e :: fsSet rest path v

/-- Decimal digits of `n`, least significant first; `fuel ≥ n` makes the
recursion total and structural. -/
def natDigitsRev (fuel n : Nat) : List Nat :=
  match fuel with
  | 0 => []
  | fuel + 1 => if n = 0 then [] else n % 10 :: natDigitsRev fuel (n / 10)

/-- Decimal rendering of a natural number, modelling Python's rendering of
`chunk_number` and `file_db_id` inside f-strings. -/
def natStr (n : Nat) : String :=
  if n = 0 then "0" else ((natDigitsRev n n).reverse.map Nat.digitChar).asString

/-- Recombination of `natDigitsRev`: digits (least significant first) back
to the number.  Used to show that `natStr` is injective. -/
def ofDigitsRev (ds : List Nat) : Nat :=
  ds.foldr (fun d a => 10 * a + d) 0

/-- A decimal parser, inverse to `natStr`.  Used to show that `natStr` is
injective. -/
def parseNat (s : String) : Nat :=
  s.data.foldl (fun a c => 10 * a + (c.toNat - 48)) 0

/-- `os.path.basename`: the part of the path after the last slash. -/
def basename (p : String) : String :=
  (p.data.foldl (fun acc c => if c = '/' then [] else acc ++ [c]) []).asString

/-- `file_name.split(".")[0]`: the text before the first dot. -/
def beforeFirstDot (s : String) : String :=
  (s.data.takeWhile (fun c => c ≠ '.')).asString

/-- The chunk file path built by both `split_file` and `merge_chunks`:
`f"{directory}/{file_name}_{i}.bin"`. -/
def chunkName (dir file_name : String) (i : Nat) : String :=
  dir ++ "/" ++ file_name ++ "_" ++ natStr i ++ ".bin"

/-- The block sequence produced by `file.read(chunk_size)` repeated until
empty; `fuel` bounds the recursion (`data.length` steps always suffice).
`chunk_size = 0` yields no blocks, as `file.read(0)` returns `b""`. -/
def readBlocksAux (fuel : Nat) (data : Bytes) (chunk_size : Nat) : List Bytes :=
  match fuel with
  | 0 => []
  | fuel + 1 =>
    if chunk_size = 0 then []
    else
      match data with
      | [] => []
      | _ :: _ => data.take chunk_size :: readBlocksAux fuel (data.drop chunk_size) chunk_size

/-- All blocks read from `data` with the given chunk size. -/
def readBlocks (data : Bytes) (chunk_size : Nat) : List Bytes :=
  readBlocksAux data.length data chunk_size

/-- The chunk-writing loop of `split_file`: write block `b` as chunk `i`,
continue with `i + 1`.  `fault = some i` models an I/O exception raised
while reading block `i` or writing chunk file `i`; the `try` block then
aborts and `split_file` returns `None` (chunks written so far remain). -/
def writeChunks (fs : FS) (fault : Option Nat) (dir file_name : String)
    (blocks : List Bytes) (i : Nat) : Option String × FS :=
  match blocks with
  | [] => (some dir, fs)
  | b :: rest =>
    if fault = some i then (none, fs)
    else writeChunks (fsSet fs (chunkName dir file_name i) b) fault dir file_name rest (i + 1)

/-- `split_file(input_file_path, chunk_size, output_directory)`.  Opening a
missing input file raises, caught by the `except` clause, returning `None`;
`fault = some 0` models any other exception at open/mkdir time, and
`fault = some i` (`i ≥ 1`) an exception while producing chunk `i`.  On
success the output directory is returned and the file system holds one
chunk file per block, with 1-based ordinals. -/
def split_file (fs : FS) (fault : Option Nat) (input_file_path : String)
    (chunk_size : Nat) (output_directory : String) : Option String × FS :=
  match fsLookup fs input_file_path with
  | none => (none, fs)
  | some data =>
    if fault = some 0 then (none, fs)
    else writeChunks fs fault output_directory (basename input_file_path)
      (readBlocks data chunk_size) 1

/-- The chunk files `split_file` creates for the given blocks when the
first of them gets ordinal `i`: one entry per block, consecutive 1-based
ordinals, in writing order. -/
def entriesFrom (dir file_name : String) (i : Nat) : List Bytes → FS
  | [] => []
  | b :: rest => (chunkName dir file_name i, b) :: entriesFrom dir file_name (i + 1) rest

/-- The read-append loop of `merge_chunks`: starting at ordinal `n`, while
the expected chunk file exists, append its contents to the output file and
advance; stop at the first missing ordinal.  `acc` is what has been written
to the output file so far, and the output file at `file_name` holds `acc`
once the function stops (whether normally or on a fault at ordinal `n`).
`fuel` bounds the loop; `fs.length + 1` iterations always suffice because
the chunk paths for distinct ordinals are distinct. -/
def mergeLoop (fs : FS) (fault : Option (Nat × String)) (dir file_name : String)
    (acc : Bytes) (n : Nat) (fuel : Nat) : String × FS :=
  match fuel with
  | 0 => (file_name, fsSet fs file_name acc)
  | fuel + 1 =>
    match fsLookup fs (chunkName dir file_name n) with
    | none => (file_name, fsSet fs file_name acc)
    | some b =>
      match fault with
      | some (m, msg) =>
        if m = n then (msg, fsSet fs file_name acc)
        else mergeLoop fs fault dir file_name (acc ++ b) (n + 1) fuel
      | none => mergeLoop fs fault dir file_name (acc ++ b) (n + 1) fuel

/-- `merge_chunks(chunks_directory, file_name)`.  The output file at
`file_name` is opened for writing (truncated) first, then chunks are
appended from ordinal 1 up to the first missing one; the function returns
`file_name`.  `fault = some (0, msg)` models an exception raised while
opening the output file and `fault = some (n, msg)` (`n ≥ 1`) one raised
while reading chunk `n` or appending it; the `except` clause turns any such
exception into the returned string `str(e) = msg`. -/
def merge_chunks (fs : FS) (fault : Option (Nat × String))
    (chunks_directory file_name : String) : String × FS :=
  match fault with
  | some (0, msg) => (msg, fs)
  | _ => mergeLoop fs fault chunks_directory file_name [] 1 (fs.length + 1)

/-- An HTTP response as seen by `handle_uploading` (`r`); the code never
inspects it. -/
structure HttpResp where
  status : Nat
  body : String

/-- Character-list prefix test (the meaning of a `dir/*` glob pattern on
our flat path names). -/
def isPre : List Char → List Char → Bool
  | [], _ => true
  | _ :: _, [] => false
  | c :: cs, d :: ds => c = d && isPre cs ds

/-- Whether `glob.glob(f"{dir}/*")` matches `path`: `path` extends
`dir ++ "/"` and the remainder crosses no further directory separator. -/
def globMatch (dir path : String) : Bool :=
  isPre (dir ++ "/").data path.data
    && (path.data.drop (dir.data.length + 1)).all (fun c => c ≠ '/')

/-- `glob.glob(f"{chunks_dir_path}/*")`: the paths under the directory, in
file-system listing order. -/
def globList (fs : FS) (dir : String) : List String :=
  (fs.filter (fun e => globMatch dir e.1)).map (fun e => e.1)

/-- The posting loop of `handle_uploading`: one POST per listed chunk file,
carrying `{"fileId": parent_file_id}` and the chunk bytes.  `fault = some i`
models an I/O or transport exception raised while opening or posting the
`i`-th chunk (1-based); the response of a completed POST is bound to `r`
and ignored.  Returns the overall flag and the chunks successfully posted,
in order. -/
def uploadLoop (postResp : Nat → String → HttpResp) (parent_file_id : Nat)
    (fault : Option Nat) (chunks : List String) (i : Nat) (sent : List String) :
    Bool × List String :=
  match chunks with
  | [] => (true, sent)
  | c :: rest =>
    if fault = some i then (false, sent)
    else
      let _r : HttpResp := postResp parent_file_id c
      uploadLoop postResp parent_file_id fault rest (i + 1) (sent ++ [c])

/-- `handle_uploading(chunks_dir_path, parent_file_id)`: posts every file
the glob lists and returns `True`, or `False` if any post raises. -/
def handle_uploading (fs : FS) (postResp : Nat → String → HttpResp) (fault : Option Nat)
    (chunks_dir_path : String) (parent_file_id : Nat) : Bool × List String :=
  uploadLoop postResp parent_file_id fault (globList fs chunks_dir_path) 1 []

/-- The request body sent by `add_file`. -/
structure AddFileReq where
  name : String
  mimeType : Option String
  size : Nat
  path : String

/-- The parsed response of the file-registration POST (`r.json()`), as the
code reads it: `.get("fileId")` and `.get("error")`. -/
structure AddFileResp where
  fileId : Option Nat
  errMsg : Option String

/-- `add_file(...)`: a pure request/response pass-through; the response is
whatever the service answers (the oracle `resp`). -/
def add_file (resp : AddFileResp) (_req : AddFileReq) : AddFileResp :=
  resp

/-- Events observable during `upload_file`: the metadata registration, the
call to `split_file`, and each chunk POST. -/
inductive Ev where
  | addFile : Ev
  | split : Ev
  | postChunk : String → Ev
deriving DecidableEq

/-- `upload_file(file_local_path, directory_path)`.  `os.path.getsize`
raises `FileNotFoundError` on a missing path (before any network call);
otherwise the file is registered, split into 20 MiB chunks under the
directory named by the server-assigned id, and the chunks are posted.
Returns the registration response on success and `None` on any reported
failure, together with the list of performed operations. -/
def upload_file (fs : FS) (addResp : AddFileResp) (mimeGuess : Option String)
    (splitFault : Option Nat) (postResp : Nat → String → HttpResp) (uploadFault : Option Nat)
    (file_local_path : String) (directory_path : String) :
    Except String (Option AddFileResp) × List Ev :=
  match fsLookup fs file_local_path with
  | none => (Except.error "FileNotFoundError", [])
  | some data =>
    let file_name := basename file_local_path
    let file_data := add_file addResp
      ⟨file_name, mimeGuess, data.length, directory_path⟩
    match file_data.fileId with
    | none => (Except.ok none, [Ev.addFile])
    | some file_db_id =>
      match split_file fs splitFault file_local_path (1024 * 1024 * 20) (natStr file_db_id) with
      | (none, _) => (Except.ok none, [Ev.addFile, Ev.split])
      | (some chuncks_directory, fs₁) =>
        match handle_uploading fs₁ postResp uploadFault chuncks_directory file_db_id with
        | (true, sent) =>
          (Except.ok (some file_data), [Ev.addFile, Ev.split] ++ sent.map Ev.postChunk)
        | (false, sent) =>
          (Except.ok none, [Ev.addFile, Ev.split] ++ sent.map Ev.postChunk)

/-- One element of the `chunksIds` list of a file-descriptor response. -/
structure ChunkEntry where
  chunkId : Nat
  chunkName : String

/-- The parsed file-descriptor response (`get_file_data`), as read by
`download_file`: only `.get("chunksIds")` is consulted. -/
structure FileMeta where
  chunksIds : Option (List ChunkEntry)

/-- The chunk-fetch loop of `download_file`: for each entry, GET the bytes
by `chunkId` and write them under the staging directory; a transport
exception (`chunkResp` returning `Except.error`) aborts the loop, leaving
already-fetched chunk files in place. -/
def fetchChunks (chunkResp : Nat → Except String Bytes) (output_directory : String) :
    FS → List ChunkEntry → FS × Option String
  | fs, [] => (fs, none)
  | fs, e :: rest =>
    match chunkResp e.chunkId with
    | Except.error msg => (fs, some msg)
    | Except.ok bytes =>
      fetchChunks chunkResp output_directory
        (fsSet fs (output_directory ++ "/" ++ e.chunkName) bytes) rest

/-- `download_file(file_name)`.  There is no `try` block: a metadata
request that raises propagates (`metaResp = Except.error`), and a missing
`chunksIds` field makes the `for` loop raise `TypeError`; a chunk-fetch
exception propagates likewise.  Otherwise the fetched chunks are merged and
`merge_chunks`' return value — the file name, or an error message string —
is returned as is. -/
def download_file (fs : FS) (metaResp : Except String FileMeta)
    (chunkResp : Nat → Except String Bytes) (mergeFault : Option (Nat × String))
    (file_name : String) : Except String String × FS :=
  match metaResp with
  | Except.error msg => (Except.error msg, fs)
  | Except.ok file_data =>
    let output_directory := beforeFirstDot file_name
    match file_data.chunksIds with
    | none => (Except.error "TypeError: NoneType object is not iterable", fs)
    | some chunks_id_list =>
      match fetchChunks chunkResp output_directory fs chunks_id_list with
      | (fs₁, some msg) => (Except.error msg, fs₁)
      | (fs₁, none) =>
        let r := merge_chunks fs₁ mergeFault output_directory file_name
        (Except.ok r.1, r.2)

/-! ### File-system lemmas -/

theorem fsMem_eq_isSome (fs : FS) (path : String) :
    fsMem fs path = (fsLookup fs path).isSome := by
  induction fs with
  | nil => rfl
  | cons e rest ih =>
    simp only [fsMem, fsLookup]
    by_cases h : e.1 = path <;> simp [h, ih]

theorem fsLookup_fsSet_self (fs : FS) (path : String) (v : Bytes) :
    fsLookup (fsSet fs path v) path = some v := by
  induction fs with
  | nil => simp [fsSet, fsLookup]
  | cons e rest ih =>
    simp only [fsSet]
    by_cases h : e.1 = path <;> simp [h, fsLookup, ih]

theorem fsLookup_fsSet_ne (fs : FS) (path q : String) (v : Bytes) (h : q ≠ path) :
    fsLookup (fsSet fs path v) q = fsLookup fs q := by
  induction fs with
  | nil =>
    simp only [fsSet, fsLookup]
    rw [if_neg (fun hc => h hc.symm)]
  | cons e rest ih =>
    simp only [fsSet]
    by_cases he : e.1 = path
    · rw [if_pos he]
      simp only [fsLookup]
      rw [if_neg (fun hc => h hc.symm), if_neg (fun hc => h (hc.symm.trans he))]
    · simp only [if_neg he, fsLookup]
      by_cases hq : e.1 = q <;> simp [hq, ih]

theorem fsSet_not_mem (fs : FS) (path : String) (v : Bytes)
    (h : fsMem fs path = false) : fsSet fs path v = fs ++ [(path, v)] := by
  induction fs with
  | nil => rfl
  | cons e rest ih =>
    simp only [fsMem, Bool.or_eq_false_iff, decide_eq_false_iff_not] at h
    simp [fsSet, h.1, ih h.2]

theorem fsMem_append (l₁ l₂ : FS) (path : String) :
    fsMem (l₁ ++ l₂) path = (fsMem l₁ path || fsMem l₂ path) := by
  induction l₁ with
  | nil => simp [fsMem]
  | cons e rest ih => simp [fsMem, ih, Bool.or_assoc]

theorem fsLookup_append (l₁ l₂ : FS) (path : String) :
    fsLookup (l₁ ++ l₂) path =
      match fsLookup l₁ path with
      | some v => some v
      | none => fsLookup l₂ path := by
  induction l₁ with
  | nil => simp [fsLookup]
  | cons e rest ih =>
    simp only [List.cons_append, fsLookup]
    by_cases h : e.1 = path <;> simp [h, ih]

theorem fsMem_true_mem_keys (fs : FS) (path : String) (h : fsMem fs path = true) :
    path ∈ fs.map (fun e => e.1) := by
  induction fs with
  | nil => simp [fsMem] at h
  | cons e rest ih =>
    simp only [fsMem, Bool.or_eq_true, decide_eq_true_eq] at h
    rcases h with h | h
    · simp [h]
    · simp [ih h]

/-! ### Decimal rendering: `natStr` is injective -/

theorem ofDigitsRev_natDigitsRev (fuel : Nat) :
    ∀ n, n ≤ fuel → ofDigitsRev (natDigitsRev fuel n) = n := by
  induction fuel with
  | zero => intro n hn; interval_cases n; rfl
  | succ fuel ih =>
    intro n hn
    by_cases h0 : n = 0
    · simp [natDigitsRev, h0, ofDigitsRev]
    · have hdiv : n / 10 ≤ fuel := by
        have : n / 10 < n := Nat.div_lt_self (Nat.pos_of_ne_zero h0) (by omega)
        omega
      simp only [natDigitsRev, h0, if_false, ofDigitsRev, List.foldr_cons]
      have := ih (n / 10) hdiv
      simp only [ofDigitsRev] at this
      rw [this]
      have := Nat.mod_add_div n 10
      omega

theorem natDigitsRev_lt_ten (fuel : Nat) :
    ∀ n d, d ∈ natDigitsRev fuel n → d < 10 := by
  induction fuel with
  | zero => intro n d h; simp [natDigitsRev] at h
  | succ fuel ih =>
    intro n d h
    by_cases h0 : n = 0
    · simp [natDigitsRev, h0] at h
    · simp only [natDigitsRev, h0, if_false, List.mem_cons] at h
      rcases h with h | h
      · have := Nat.mod_lt n (show 0 < 10 by omega)
        omega
      · exact ih _ _ h

theorem digitChar_toNat (d : Nat) (hd : d < 10) : (Nat.digitChar d).toNat - 48 = d := by
  interval_cases d <;> decide

theorem foldl_digitChar (ds : List Nat) :
    ∀ a, (∀ d ∈ ds, d < 10) →
      ds.foldl (fun a d => 10 * a + ((Nat.digitChar d).toNat - 48)) a
        = ds.foldl (fun a d => 10 * a + d) a := by
  induction ds with
  | nil => intro a _; rfl
  | cons d rest ih =>
    intro a hall
    simp only [List.foldl_cons]
    rw [digitChar_toNat d (hall d (by simp))]
    exact ih _ (fun x hx => hall x (by simp [hx]))

theorem parseNat_natStr (n : Nat) : parseNat (natStr n) = n := by
  by_cases h0 : n = 0
  · subst h0; decide
  · unfold natStr parseNat
    rw [if_neg h0]
    have hdata : ((natDigitsRev n n).reverse.map Nat.digitChar).asString.data
        = (natDigitsRev n n).reverse.map Nat.digitChar :=
      List.toList_asString _
    rw [hdata, List.foldl_map]
    have hall : ∀ d ∈ (natDigitsRev n n).reverse, d < 10 := fun d hd =>
      natDigitsRev_lt_ten n n d (List.mem_reverse.mp hd)
    rw [foldl_digitChar _ 0 hall, List.foldl_reverse]
    exact ofDigitsRev_natDigitsRev n n (le_refl n)

theorem natStr_injective : Function.Injective natStr := by
  intro m n h
  rw [← parseNat_natStr m, ← parseNat_natStr n, h]

/-! ### Chunk-path lemmas -/

theorem chunkName_inj (dir fn : String) (i j : Nat)
    (h : chunkName dir fn i = chunkName dir fn j) : i = j := by
  apply natStr_injective
  unfold chunkName at h
  have hdata := congrArg String.data h
  simp only [String.data_append] at hdata
  have h₁ := List.append_cancel_right hdata
  have h₂ := List.append_cancel_left h₁
  exact String.toList_inj.mp h₂

theorem natStr_length_pos (i : Nat) : 0 < (natStr i).length := by
  unfold natStr
  by_cases h0 : i = 0
  · subst h0; decide
  · rw [if_neg h0]
    have : natDigitsRev i i ≠ [] := by
      cases i with
      | zero => exact absurd rfl h0
      | succ k =>
        simp [natDigitsRev]
    have hlen : 0 < (natDigitsRev i i).length := List.length_pos.mpr this
    simp only [String.length, List.toList_asString, List.length_map, List.length_reverse]
    simpa using hlen

theorem chunkName_length (dir fn : String) (i : Nat) :
    (chunkName dir fn i).length
      = dir.length + fn.length + (natStr i).length + 6 := by
  unfold chunkName
  simp only [String.length_append]
  have : ("/" : String).length = 1 := rfl
  have : ("_" : String).length = 1 := rfl
  have : (".bin" : String).length = 4 := rfl
  omega

theorem chunkName_ne_of_short (dir fn : String) (i : Nat) (s : String)
    (hs : s.length < dir.length + fn.length + 7) : chunkName dir fn i ≠ s := by
  intro h
  have hlen := congrArg String.length h
  rw [chunkName_length] at hlen
  have := natStr_length_pos i
  omega

theorem chunkName_ne_fn (dir fn : String) (i : Nat) : chunkName dir fn i ≠ fn :=
  chunkName_ne_of_short dir fn i fn (by omega)

/-! ### Block-reading lemmas -/

theorem readBlocksAux_nil (fuel C : Nat) : readBlocksAux fuel [] C = [] := by
  cases fuel with
  | zero => rfl
  | succ fuel =>
    simp only [readBlocksAux]
    by_cases h : C = 0 <;> simp [h]

theorem readBlocksAux_congr :
    ∀ (fuel₁ fuel₂ : Nat) (data : Bytes) (C : Nat), data.length ≤ fuel₁ →
      data.length ≤ fuel₂ → readBlocksAux fuel₁ data C = readBlocksAux fuel₂ data C := by
  intro fuel₁
  induction fuel₁ with
  | zero =>
    intro fuel₂ data C h₁ _
    have : data = [] := List.length_eq_zero.mp (by omega)
    subst this
    rw [readBlocksAux_nil, readBlocksAux_nil]
  | succ fuel₁ ih =>
    intro fuel₂ data C h₁ h₂
    cases data with
    | nil => rw [readBlocksAux_nil, readBlocksAux_nil]
    | cons d ds =>
      cases fuel₂ with
      | zero => simp at h₂
      | succ fuel₂ =>
        simp only [readBlocksAux]
        by_cases hC : C = 0
        · simp [hC]
        · simp only [hC, if_false]
          have hlen : (List.drop C (d :: ds)).length ≤ fuel₁ := by
            simp only [List.length_drop, List.length_cons] at *
            omega
          have hlen₂ : (List.drop C (d :: ds)).length ≤ fuel₂ := by
            simp only [List.length_drop, List.length_cons] at *
            omega
          rw [ih fuel₂ _ C hlen hlen₂]

theorem readBlocks_nil (C : Nat) : readBlocks [] C = [] := rfl

theorem readBlocks_cons (C : Nat) (hC : 0 < C) (d : Nat) (ds : Bytes) :
    readBlocks (d :: ds) C
      = (d :: ds).take C :: readBlocks ((d :: ds).drop C) C := by
  unfold readBlocks
  simp only [List.length_cons, readBlocksAux]
  rw [if_neg (by omega)]
  congr 1
  apply readBlocksAux_congr
  · simp only [List.length_drop, List.length_cons]
    omega
  · exact le_refl _

theorem flatten_readBlocks (C : Nat) (hC : 0 < C) :
    ∀ (n : Nat) (data : Bytes), data.length ≤ n →
      (readBlocks data C).flatten = data := by
  intro n
  induction n with
  | zero =>
    intro data h
    have : data = [] := List.length_eq_zero.mp (by omega)
    subst this
    rfl
  | succ n ih =>
    intro data h
    cases data with
    | nil => rfl
    | cons d ds =>
      rw [readBlocks_cons C hC d ds]
      simp only [List.flatten_cons]
      rw [ih ((d :: ds).drop C) (by simp only [List.length_drop, List.length_cons] at *; omega)]
      exact List.take_append_drop C (d :: ds)

theorem ceil_div_step (len C : Nat) (hC : 0 < C) (hlen : 0 < len) :
    (len + C - 1) / C = ((len - C) + C - 1) / C + 1 := by
  have h1 : len + C - 1 = (len - 1) + C := by omega
  rw [h1, Nat.add_div_right _ hC]
  by_cases hlc : C ≤ len
  · have h2 : (len - C) + C - 1 = len - 1 := by omega
    rw [h2]
  · have h2 : (len - C) + C - 1 = C - 1 := by omega
    rw [h2, Nat.div_eq_of_lt (by omega), Nat.div_eq_of_lt (by omega)]

theorem length_readBlocks (C : Nat) (hC : 0 < C) :
    ∀ (n : Nat) (data : Bytes), data.length ≤ n →
      (readBlocks data C).length = (data.length + C - 1) / C := by
  intro n
  induction n with
  | zero =>
    intro data h
    have : data = [] := List.length_eq_zero.mp (by omega)
    subst this
    simp [readBlocks_nil, Nat.div_eq_of_lt, hC]
  | succ n ih =>
    intro data h
    cases data with
    | nil =>
      simp [readBlocks_nil, Nat.div_eq_of_lt, hC]
    | cons d ds =>
      rw [readBlocks_cons C hC d ds, List.length_cons,
        ih ((d :: ds).drop C) (by simp only [List.length_drop, List.length_cons] at *; omega)]
      rw [List.length_drop]
      exact (ceil_div_step ((d :: ds).length) C hC (by simp)).symm

theorem dropLast_readBlocks (C : Nat) (hC : 0 < C) :
    ∀ (n : Nat) (data : Bytes), data.length ≤ n →
      ∀ b ∈ (readBlocks data C).dropLast, b.length = C := by
  intro n
  induction n with
  | zero =>
    intro data h b hb
    have : data = [] := List.length_eq_zero.mp (by omega)
    subst this
    simp [readBlocks_nil] at hb
  | succ n ih =>
    intro data h b hb
    cases data with
    | nil => simp [readBlocks_nil] at hb
    | cons d ds =>
      rw [readBlocks_cons C hC d ds] at hb
      rcases hrest : readBlocks ((d :: ds).drop C) C with _ | ⟨r, rs⟩
      · rw [hrest] at hb
        simp at hb
      · rw [hrest, List.dropLast_cons₂, List.mem_cons] at hb
        rcases hb with hb | hb
        · subst hb
          have hCle : C ≤ (d :: ds).length := by
            by_contra hlt
            have : (d :: ds).drop C = [] :=
              List.drop_eq_nil_of_le (by omega)
            rw [this, readBlocks_nil] at hrest
            exact List.noConfusion hrest
          rw [List.length_take]
          omega
        · exact ih ((d :: ds).drop C)
            (by simp only [List.length_drop, List.length_cons] at *; omega) b
            (by rw [hrest]; exact hb)

theorem getLast_readBlocks (C : Nat) (hC : 0 < C) :
    ∀ (n : Nat) (data : Bytes), data.length ≤ n →
      ∀ b, (readBlocks data C).getLast? = some b →
        b.length = if data.length % C = 0 then C else data.length % C := by
  intro n
  induction n with
  | zero =>
    intro data h b hb
    have : data = [] := List.length_eq_zero.mp (by omega)
    subst this
    simp [readBlocks_nil] at hb
  | succ n ih =>
    intro data h b hb
    cases data with
    | nil => simp [readBlocks_nil] at hb
    | cons d ds =>
      rw [readBlocks_cons C hC d ds] at hb
      rcases hrest : readBlocks ((d :: ds).drop C) C with _ | ⟨r, rs⟩
      · rw [hrest] at hb
        simp only [List.getLast?_singleton, Option.some_inj] at hb
        subst hb
        have hfit : (d :: ds).length ≤ C := by
          by_contra hlt
          have hne : (d :: ds).drop C ≠ [] := by
            intro hnil
            have hlen0 := congrArg List.length hnil
            rw [List.length_drop] at hlen0
            simp only [List.length_nil] at hlen0
            omega
          rcases hx : (d :: ds).drop C with _ | ⟨x, xs⟩
          · exact hne hx
          · rw [hx, readBlocks_cons C hC x xs] at hrest
            exact List.noConfusion hrest
        rw [List.length_take]
        by_cases heq : (d :: ds).length = C
        · rw [heq]
          simp [Nat.mod_self, hC]
        · have hlt : (d :: ds).length < C := by omega
          rw [Nat.mod_eq_of_lt hlt, if_neg (by simp)]
          omega
      · rw [hrest, List.getLast?_cons_cons] at hb
        rw [← hrest] at hb
        have hCle : C ≤ (d :: ds).length := by
          by_contra hlt
          have : (d :: ds).drop C = [] := List.drop_eq_nil_of_le (by omega)
          rw [this, readBlocks_nil] at hrest
          exact List.noConfusion hrest
        have := ih ((d :: ds).drop C)
          (by simp only [List.length_drop, List.length_cons] at *; omega) b hb
        rw [List.length_drop] at this
        have hmod : ((d :: ds).length - C) % C = (d :: ds).length % C := by
          have : (d :: ds).length - C + C = (d :: ds).length := by omega
          calc ((d :: ds).length - C) % C
              = ((d :: ds).length - C + C) % C := (Nat.add_mod_right _ C).symm
            _ = (d :: ds).length % C := by rw [this]
        rw [hmod] at this
        exact this

/-! ### Split: the chunk files it writes -/

theorem entriesFrom_lookup (dir fn : String) :
    ∀ (blocks : List Bytes) (i t : Nat), t < blocks.length →
      fsLookup (entriesFrom dir fn i blocks) (chunkName dir fn (i + t))
        = some (blocks.getD t []) := by
  intro blocks
  induction blocks with
  | nil => intro i t ht; simp at ht
  | cons b rest ih =>
    intro i t ht
    cases t with
    | zero =>
      simp only [entriesFrom, fsLookup, Nat.add_zero]
      simp
    | succ t =>
      simp only [entriesFrom, fsLookup]
      rw [if_neg]
      · have harg : i + (t + 1) = (i + 1) + t := by omega
        rw [harg, ih (i + 1) t (by simp only [List.length_cons] at ht; omega)]
        rfl
      · intro hc
        have := chunkName_inj dir fn i (i + (t + 1)) hc
        omega

theorem entriesFrom_not_mem (dir fn : String) :
    ∀ (blocks : List Bytes) (i m : Nat), (m < i ∨ i + blocks.length ≤ m) →
      fsMem (entriesFrom dir fn i blocks) (chunkName dir fn m) = false := by
  intro blocks
  induction blocks with
  | nil => intro i m _; rfl
  | cons b rest ih =>
    intro i m hm
    simp only [entriesFrom, fsMem, Bool.or_eq_false_iff]
    constructor
    · simp only [decide_eq_false_iff_not]
      intro hc
      have := chunkName_inj dir fn i m hc
      simp only [List.length_cons] at hm
      omega
    · apply ih
      simp only [List.length_cons] at hm
      omega

theorem entriesFrom_mem (dir fn : String) :
    ∀ (blocks : List Bytes) (i m : Nat), i ≤ m → m < i + blocks.length →
      fsMem (entriesFrom dir fn i blocks) (chunkName dir fn m) = true := by
  intro blocks
  induction blocks with
  | nil => intro i m h₁ h₂; simp at h₂; omega
  | cons b rest ih =>
    intro i m h₁ h₂
    simp only [entriesFrom, fsMem, Bool.or_eq_true]
    by_cases hm : m = i
    · left
      simp [hm]
    · right
      apply ih
      · omega
      · simp only [List.length_cons] at h₂
        omega

theorem entriesFrom_length (dir fn : String) :
    ∀ (blocks : List Bytes) (i : Nat), (entriesFrom dir fn i blocks).length = blocks.length := by
  intro blocks
  induction blocks with
  | nil => intro i; rfl
  | cons b rest ih => intro i; simp [entriesFrom, ih]

theorem writeChunks_ok (dir fn : String) :
    ∀ (blocks : List Bytes) (i : Nat) (fs : FS),
      (∀ j, i ≤ j → j < i + blocks.length → fsMem fs (chunkName dir fn j) = false) →
      writeChunks fs none dir fn blocks i
        = (some dir, fs ++ entriesFrom dir fn i blocks) := by
  intro blocks
  induction blocks with
  | nil => intro i fs _; simp [writeChunks, entriesFrom]
  | cons b rest ih =>
    intro i fs hfresh
    simp only [writeChunks, entriesFrom]
    rw [if_neg (by simp)]
    rw [fsSet_not_mem fs _ b (hfresh i (le_refl i) (by simp only [List.length_cons]; omega))]
    rw [ih (i + 1) _ (fun j hj₁ hj₂ => by
      rw [fsMem_append, hfresh j (by omega) (by simp only [List.length_cons] at *; omega)]
      simp only [Bool.false_or, fsMem, Bool.or_eq_false_iff]
      refine ⟨?_, by trivial⟩
      simp only [decide_eq_false_iff_not]
      intro hc
      have := chunkName_inj dir fn i j hc
      omega)]
    rw [List.append_assoc]
    rfl

theorem split_file_ok (fs : FS) (p : String) (C : Nat) (d : String) (data : Bytes)
    (hdata : fsLookup fs p = some data)
    (hfresh : ∀ j, 1 ≤ j → j ≤ (readBlocks data C).length →
      fsMem fs (chunkName d (basename p) j) = false) :
    split_file fs none p C d
      = (some d, fs ++ entriesFrom d (basename p) 1 (readBlocks data C)) := by
  unfold split_file
  rw [hdata]
  simp only [if_neg (by simp : ¬(none : Option Nat) = some 0)]
  exact writeChunks_ok d (basename p) (readBlocks data C) 1 fs
    (fun j hj₁ hj₂ => hfresh j hj₁ (by omega))

/-! ### Merge: run characterisation -/

theorem mergeLoop_fst_none (fs : FS) (dir fn : String) :
    ∀ (fuel : Nat) (n : Nat) (acc : Bytes),
      (mergeLoop fs none dir fn acc n fuel).1 = fn := by
  intro fuel
  induction fuel with
  | zero => intro n acc; rfl
  | succ fuel ih =>
    intro n acc
    simp only [mergeLoop]
    cases fsLookup fs (chunkName dir fn n) with
    | none => rfl
    | some b => exact ih (n + 1) (acc ++ b)

theorem merge_chunks_fst_none (fs : FS) (dir fn : String) :
    (merge_chunks fs none dir fn).1 = fn :=
  mergeLoop_fst_none fs dir fn (fs.length + 1) 1 []

/-- Pigeonhole bound: if the chunk files for `L` consecutive ordinals all
exist, the file system has at least `L` entries (the chunk paths are
pairwise distinct). -/
theorem chunk_count_le (fs : FS) (dir fn : String) (L : Nat)
    (h : ∀ t, t < L → fsMem fs (chunkName dir fn (1 + t)) = true) :
    L ≤ fs.length := by
  have hinj : Function.Injective (fun t => chunkName dir fn (1 + t)) := by
    intro a b hab
    have := chunkName_inj dir fn (1 + a) (1 + b) hab
    omega
  have hnodup : ((List.range L).map (fun t => chunkName dir fn (1 + t))).Nodup :=
    (List.nodup_range L).map hinj
  have hsub : ((List.range L).map (fun t => chunkName dir fn (1 + t)))
      ⊆ fs.map (fun e => e.1) := by
    intro x hx
    rcases List.mem_map.mp hx with ⟨t, ht, rfl⟩
    exact fsMem_true_mem_keys fs _ (h t (List.mem_range.mp ht))
  have := (hnodup.subperm hsub).length_le
  simpa using this

theorem mergeLoop_run (fs : FS) (dir fn : String) (g : Nat) (vals : Nat → Bytes)
    (hgap : fsLookup fs (chunkName dir fn g) = none)
    (hval : ∀ m, 1 ≤ m → m < g → fsLookup fs (chunkName dir fn m) = some (vals m)) :
    ∀ (fuel n : Nat) (acc : Bytes), 1 ≤ n → n ≤ g → g - n < fuel →
      mergeLoop fs none dir fn acc n fuel
        = (fn, fsSet fs fn
            (acc ++ ((List.range (g - n)).map (fun t => vals (n + t))).flatten)) := by
  intro fuel
  induction fuel with
  | zero => intro n acc _ _ h; omega
  | succ fuel ih =>
    intro n acc hn₁ hn₂ hfuel
    by_cases hng : n = g
    · subst hng
      simp only [mergeLoop, hgap, Nat.sub_self, List.range_zero, List.map_nil,
        List.flatten_nil, List.append_nil]
    · have hlt : n < g := by omega
      simp only [mergeLoop, hval n hn₁ hlt]
      rw [ih (n + 1) (acc ++ vals n) (by omega) (by omega) (by omega)]
      have hrange : g - n = (g - (n + 1)) + 1 := by omega
      rw [hrange, List.range_succ_eq_map, List.map_cons, List.map_map,
        List.flatten_cons, Nat.add_zero, ← List.append_assoc]
      have hfun : ((fun t => vals (n + t)) ∘ (fun t => t + 1))
          = (fun t => vals (n + 1 + t)) := by
        funext t
        simp only [Function.comp_apply]
        congr 1
        omega
      rw [hfun]
      simp

theorem merge_chunks_run (fs : FS) (dir fn : String) (g : Nat)
    (hg1 : 1 ≤ g)
    (hgap : fsMem fs (chunkName dir fn g) = false)
    (hlt : ∀ m, 1 ≤ m → m < g → fsMem fs (chunkName dir fn m) = true) :
    merge_chunks fs none dir fn
      = (fn, fsSet fs fn
          (((List.range (g - 1)).map
            (fun t => (fsLookup fs (chunkName dir fn (1 + t))).getD [])).flatten)) := by
  have hgap' : fsLookup fs (chunkName dir fn g) = none := by
    rw [fsMem_eq_isSome] at hgap
    exact Option.not_isSome_iff_eq_none.mp (by simp [hgap])
  have hval : ∀ m, 1 ≤ m → m < g →
      fsLookup fs (chunkName dir fn m) = some ((fsLookup fs (chunkName dir fn m)).getD []) := by
    intro m hm₁ hm₂
    have := hlt m hm₁ hm₂
    rw [fsMem_eq_isSome] at this
    cases ho : fsLookup fs (chunkName dir fn m) with
    | none => rw [ho] at this; simp at this
    | some v => rfl
  have hbound : g - 1 ≤ fs.length :=
    chunk_count_le fs dir fn (g - 1) (fun t ht => hlt (1 + t) (by omega) (by omega))
  have hrun := mergeLoop_run fs dir fn g
    (fun m => (fsLookup fs (chunkName dir fn m)).getD []) hgap' hval
    (fs.length + 1) 1 [] (le_refl 1) hg1 (by omega)
  simp only [List.nil_append] at hrun
  exact hrun

theorem map_getD_range :
    ∀ (l : List Bytes), (List.range l.length).map (fun t => l.getD t []) = l := by
  intro l
  induction l with
  | nil => rfl
  | cons b rest ih =>
    rw [List.length_cons, List.range_succ_eq_map, List.map_cons, List.map_map]
    have hcomp : ((fun t => (b :: rest).getD t []) ∘ fun t => t + 1)
        = (fun t => rest.getD t []) := by
      funext t
      rfl
    rw [hcomp, ih]
    rfl

/-! ### Upload-loop lemmas -/

theorem uploadLoop_resp (p p' : Nat → String → HttpResp) (pid : Nat) (fault : Option Nat) :
    ∀ (chunks : List String) (i : Nat) (sent : List String),
      uploadLoop p pid fault chunks i sent = uploadLoop p' pid fault chunks i sent := by
  intro chunks
  induction chunks with
  | nil => intro i sent; rfl
  | cons c rest ih =>
    intro i sent
    simp only [uploadLoop]
    by_cases h : fault = some i <;> simp [h, ih]

theorem uploadLoop_none (p : Nat → String → HttpResp) (pid : Nat) :
    ∀ (chunks : List String) (i : Nat) (sent : List String),
      uploadLoop p pid none chunks i sent = (true, sent ++ chunks) := by
  intro chunks
  induction chunks with
  | nil => intro i sent; simp [uploadLoop]
  | cons c rest ih =>
    intro i sent
    simp only [uploadLoop]
    rw [if_neg (by simp)]
    rw [ih (i + 1) (sent ++ [c])]
    simp

theorem uploadLoop_fault (p : Nat → String → HttpResp) (pid j : Nat) :
    ∀ (chunks : List String) (i : Nat) (sent : List String), i ≤ j →
      j < i + chunks.length →
      uploadLoop p pid (some j) chunks i sent = (false, sent ++ chunks.take (j - i)) := by
  intro chunks
  induction chunks with
  | nil => intro i sent h₁ h₂; simp at h₂; omega
  | cons c rest ih =>
    intro i sent h₁ h₂
    simp only [uploadLoop]
    by_cases hji : j = i
    · rw [if_pos (by rw [hji])]
      subst hji
      simp
    · rw [if_neg (by simp only [Option.some_inj]; exact hji)]
      rw [ih (i + 1) (sent ++ [c]) (by omega) (by simp only [List.length_cons] at h₂; omega)]
      have htake : (c :: rest).take (j - i) = c :: rest.take (j - (i + 1)) := by
        have : j - i = (j - (i + 1)) + 1 := by omega
        rw [this, List.take_succ_cons]
      rw [htake]
      simp

theorem uploadLoop_miss (p : Nat → String → HttpResp) (pid j : Nat) :
    ∀ (chunks : List String) (i : Nat) (sent : List String),
      (j < i ∨ i + chunks.length ≤ j) →
      uploadLoop p pid (some j) chunks i sent = (true, sent ++ chunks) := by
  intro chunks
  induction chunks with
  | nil => intro i sent _; simp [uploadLoop]
  | cons c rest ih =>
    intro i sent h
    simp only [uploadLoop]
    rw [if_neg (by
      simp only [Option.some_inj]
      simp only [List.length_cons] at h
      omega)]
    rw [ih (i + 1) (sent ++ [c]) (by simp only [List.length_cons] at h; omega)]
    simp

/-! ### The claims -/

/-- C1: Round-trip identity.  For every byte sequence and every positive
chunk size, `split_file` on a file holding those bytes followed by
`merge_chunks` over the produced chunk directory, with the target file name
equal to the source file's base name, yields an output file whose bytes are
exactly the original sequence — covering length 0, lengths below, equal to,
a non-multiple of and a multiple of the chunk size.  The side condition
keeps the source path from aliasing a chunk path (chunk paths are longer
than `dir + basename + 7`). -/
theorem split_merge_round_trip (p d : String) (data : Bytes) (C : Nat)
    (hC : 0 < C)
    (hp : p.length < d.length + (basename p).length + 7) :
    (split_file [(p, data)] none p C d).1 = some d
    ∧ fsLookup (merge_chunks (split_file [(p, data)] none p C d).2 none d (basename p)).2
        (basename p) = some data := by
  have hdata : fsLookup [(p, data)] p = some data := by simp [fsLookup]
  have hnep : ∀ i, chunkName d (basename p) i ≠ p :=
    fun i => chunkName_ne_of_short d (basename p) i p hp
  have hone : ∀ i, fsMem [(p, data)] (chunkName d (basename p) i) = false := by
    intro i
    simp only [fsMem, Bool.or_eq_false_iff]
    exact ⟨by simp only [decide_eq_false_iff_not]; exact fun hc => hnep i hc.symm, by trivial⟩
  have hsplit := split_file_ok [(p, data)] p C d data hdata (fun j _ _ => hone j)
  constructor
  · rw [hsplit]
  · rw [hsplit]
    show fsLookup (merge_chunks
      ([(p, data)] ++ entriesFrom d (basename p) 1 (readBlocks data C)) none d (basename p)).2
      (basename p) = some data
    have hgap : fsMem ([(p, data)] ++ entriesFrom d (basename p) 1 (readBlocks data C))
        (chunkName d (basename p) ((readBlocks data C).length + 1)) = false := by
      rw [fsMem_append, hone _,
        entriesFrom_not_mem d (basename p) (readBlocks data C) 1 _ (by omega)]
      rfl
    have hbelow : ∀ m, 1 ≤ m → m < (readBlocks data C).length + 1 →
        fsMem ([(p, data)] ++ entriesFrom d (basename p) 1 (readBlocks data C))
          (chunkName d (basename p) m) = true := by
      intro m hm₁ hm₂
      rw [fsMem_append, entriesFrom_mem d (basename p) (readBlocks data C) 1 m hm₁ (by omega)]
      simp
    have hmerge := merge_chunks_run _ d (basename p) ((readBlocks data C).length + 1)
      (by omega) hgap hbelow
    rw [hmerge, fsLookup_fsSet_self]
    congr 1
    have hsub : (readBlocks data C).length + 1 - 1 = (readBlocks data C).length := by omega
    rw [hsub]
    have hpt : ∀ t ∈ List.range (readBlocks data C).length,
        (fsLookup ([(p, data)] ++ entriesFrom d (basename p) 1 (readBlocks data C))
          (chunkName d (basename p) (1 + t))).getD []
          = (readBlocks data C).getD t [] := by
      intro t ht
      rw [List.mem_range] at ht
      rw [fsLookup_append]
      have h₁ : fsLookup [(p, data)] (chunkName d (basename p) (1 + t)) = none := by
        simp only [fsLookup]
        rw [if_neg (fun hc => hnep _ hc.symm)]
      rw [h₁, entriesFrom_lookup d (basename p) (readBlocks data C) 1 t ht]
      rfl
    rw [List.map_congr_left hpt, map_getD_range]
    exact flatten_readBlocks C hC data.length data (le_refl _)

/-- Witness for C1 at bytes `[7, 8, 9]`, chunk size 2 (a non-multiple):
split then merge reproduces the bytes. -/
theorem split_merge_round_trip_witness :
    (0 < 2 ∧ ("f" : String).length < ("d" : String).length + (basename "f").length + 7)
    ∧ ((split_file [("f", [7, 8, 9])] none "f" 2 "d").1 = some "d"
      ∧ fsLookup (merge_chunks (split_file [("f", [7, 8, 9])] none "f" 2 "d").2
          none "d" (basename "f")).2 (basename "f") = some [7, 8, 9]) :=
  ⟨⟨by decide, by decide⟩,
    split_merge_round_trip "f" "d" [7, 8, 9] 2 (by decide) (by decide)⟩

/-- C6: Ordinal contiguity and chunk sizes.  Splitting a file of `N` bytes
with positive chunk size `C` writes exactly `⌈N / C⌉` chunk files (zero
when `N = 0`), named with consecutive 1-based ordinals (the `entriesFrom`
list), every chunk but the last holding exactly `C` bytes and the last
holding `N mod C` bytes, or a full `C` when `N` is a nonzero exact
multiple of `C`. -/
theorem split_ordinals_and_sizes (p d : String) (data : Bytes) (C : Nat)
    (hC : 0 < C)
    (hp : p.length < d.length + (basename p).length + 7) :
    split_file [(p, data)] none p C d
        = (some d, [(p, data)] ++ entriesFrom d (basename p) 1 (readBlocks data C))
    ∧ (entriesFrom d (basename p) 1 (readBlocks data C)).length
        = (data.length + C - 1) / C
    ∧ (data = [] → readBlocks data C = [])
    ∧ (∀ b ∈ (readBlocks data C).dropLast, b.length = C)
    ∧ (∀ b, (readBlocks data C).getLast? = some b →
        b.length = if data.length % C = 0 then C else data.length % C) := by
  have hnep : ∀ i, chunkName d (basename p) i ≠ p :=
    fun i => chunkName_ne_of_short d (basename p) i p hp
  have hone : ∀ i, fsMem [(p, data)] (chunkName d (basename p) i) = false := by
    intro i
    simp only [fsMem, Bool.or_eq_false_iff]
    exact ⟨by simp only [decide_eq_false_iff_not]; exact fun hc => hnep i hc.symm, by trivial⟩
  refine ⟨split_file_ok [(p, data)] p C d data (by simp [fsLookup]) (fun j _ _ => hone j),
    ?_, ?_, ?_, ?_⟩
  · rw [entriesFrom_length, length_readBlocks C hC data.length data (le_refl _)]
  · intro h
    subst h
    rfl
  · exact dropLast_readBlocks C hC data.length data (le_refl _)
  · exact getLast_readBlocks C hC data.length data (le_refl _)

/-- Witness for C6 at 5 bytes with chunk size 2: three chunks of sizes
2, 2 and 1, ordinals 1, 2, 3. -/
theorem split_ordinals_and_sizes_witness :
    (0 < 2 ∧ ("f" : String).length < ("dd" : String).length + (basename "f").length + 7)
    ∧ (split_file [("f", [1, 2, 3, 4, 5])] none "f" 2 "dd"
        = (some "dd", [("f", [1, 2, 3, 4, 5])]
            ++ entriesFrom "dd" (basename "f") 1 (readBlocks [1, 2, 3, 4, 5] 2))
      ∧ (entriesFrom "dd" (basename "f") 1 (readBlocks [1, 2, 3, 4, 5] 2)).length
          = (([1, 2, 3, 4, 5] : Bytes).length + 2 - 1) / 2
      ∧ (([1, 2, 3, 4, 5] : Bytes) = [] → readBlocks [1, 2, 3, 4, 5] 2 = [])
      ∧ (∀ b ∈ (readBlocks [1, 2, 3, 4, 5] 2).dropLast, b.length = 2)
      ∧ (∀ b, (readBlocks [1, 2, 3, 4, 5] 2).getLast? = some b →
          b.length = if ([1, 2, 3, 4, 5] : Bytes).length % 2 = 0
            then 2 else ([1, 2, 3, 4, 5] : Bytes).length % 2)) :=
  ⟨⟨by decide, by decide⟩,
    split_ordinals_and_sizes "f" "dd" [1, 2, 3, 4, 5] 2 (by decide) (by decide)⟩

/-- C7: Merge termination at the first gap.  If the chunk files for
ordinals `1, …, g - 1` exist and the one for ordinal `g` does not, then
`merge_chunks` (no I/O fault) appends exactly the contents of chunks
`1, …, g - 1` in increasing ordinal order to the output file and returns
the target file name; chunks at ordinals beyond the gap are ignored. -/
theorem merge_stops_at_first_gap (fs : FS) (dir fn : String) (g : Nat)
    (hg1 : 1 ≤ g)
    (hgap : fsMem fs (chunkName dir fn g) = false)
    (hbelow : ∀ m, m < g → 1 ≤ m → fsMem fs (chunkName dir fn m) = true) :
    merge_chunks fs none dir fn
      = (fn, fsSet fs fn
          (((List.range (g - 1)).map
            (fun t => (fsLookup fs (chunkName dir fn (1 + t))).getD [])).flatten)) :=
  merge_chunks_run fs dir fn g hg1 hgap (fun m hm₁ hm₂ => hbelow m hm₂ hm₁)

/-- Witness for C7: a staging directory holding ordinals 1, 2 and 4 merges
chunks 1 and 2 only — the output file is their concatenation. -/
theorem merge_stops_at_first_gap_witness :
    (1 ≤ 3
      ∧ fsMem [("s/out_1.bin", [10, 11]), ("s/out_2.bin", [12]), ("s/out_4.bin", [13])]
          (chunkName "s" "out" 3) = false
      ∧ ∀ m, m < 3 → 1 ≤ m →
          fsMem [("s/out_1.bin", [10, 11]), ("s/out_2.bin", [12]), ("s/out_4.bin", [13])]
            (chunkName "s" "out" m) = true)
    ∧ merge_chunks [("s/out_1.bin", [10, 11]), ("s/out_2.bin", [12]), ("s/out_4.bin", [13])]
        none "s" "out"
      = ("out", [("s/out_1.bin", [10, 11]), ("s/out_2.bin", [12]), ("s/out_4.bin", [13]),
          ("out", [10, 11, 12])]) := by
  refine ⟨⟨by decide, by decide, by decide⟩, ?_⟩
  rw [merge_stops_at_first_gap _ "s" "out" 3 (by decide) (by decide) (by decide)]
  decide

/-- C10: `merge_chunks` opens the output file for writing before any chunk
check, so it truncates whatever was at the target name; when the chunk at
ordinal 1 is missing it still returns the target name (the success shape)
and leaves a zero-byte output file. -/
theorem merge_truncates_and_empty_on_no_chunks (fs : FS) (dir fn : String)
    (h1 : fsMem fs (chunkName dir fn 1) = false) :
    merge_chunks fs none dir fn = (fn, fsSet fs fn [])
    ∧ fsLookup (fsSet fs fn []) fn = some [] := by
  constructor
  · have := merge_chunks_run fs dir fn 1 (le_refl 1) h1 (fun m hm₁ hm₂ => by omega)
    simpa using this
  · exact fsLookup_fsSet_self fs fn []

/-- Witness for C10: the target file already holds bytes and no chunk at
ordinal 1 exists; the merge reports the file name and the file is now
empty. -/
theorem merge_truncates_witness :
    (fsMem [("out", [5, 5, 5])] (chunkName "c" "out" 1) = false)
    ∧ (merge_chunks [("out", [5, 5, 5])] none "c" "out"
        = ("out", fsSet [("out", [5, 5, 5])] "out" [])
      ∧ fsLookup (fsSet [("out", [5, 5, 5])] "out" []) "out" = some []) :=
  ⟨by decide, merge_truncates_and_empty_on_no_chunks [("out", [5, 5, 5])] "c" "out" (by decide)⟩

/-- C2 counterexample: a run of `merge_chunks` in which opening the output
file raises an exception whose message equals the target file name returns
exactly the same value as a successful run — the failure outcome is not
distinguishable from the success path's return value. -/
theorem merge_failure_collides_with_success :
    (merge_chunks [] (some (0, "out")) "dir" "out").1
      = (merge_chunks [("dir/out_1.bin", [1])] none "dir" "out").1 := by
  decide

/-- C2 (amended): on an I/O failure `merge_chunks` returns the exception
message `str(e)`; this return value differs from the success path's return
(the target file name) exactly when the message happens to differ from the
file name — distinguishability is not guaranteed in general. -/
theorem merge_failure_returns_message (fs fs' : FS) (dir fn msg : String)
    (h : msg ≠ fn) :
    (merge_chunks fs (some (0, msg)) dir fn).1 = msg
    ∧ (merge_chunks fs' none dir fn).1 = fn
    ∧ (merge_chunks fs (some (0, msg)) dir fn).1 ≠ (merge_chunks fs' none dir fn).1 := by
  refine ⟨rfl, merge_chunks_fst_none fs' dir fn, ?_⟩
  rw [merge_chunks_fst_none fs' dir fn]
  exact h

/-- Witness for the amended C2: a failure message different from the file
name is distinguishable from the success return. -/
theorem merge_failure_returns_message_witness :
    ("boom" ≠ "out")
    ∧ ((merge_chunks [] (some (0, "boom")) "dir" "out").1 = "boom"
      ∧ (merge_chunks [] none "dir" "out").1 = "out"
      ∧ (merge_chunks [] (some (0, "boom")) "dir" "out").1
          ≠ (merge_chunks [] none "dir" "out").1) :=
  ⟨by decide, merge_failure_returns_message [] [] "dir" "out" "boom" (by decide)⟩

/-- C3 counterexample: when the file-descriptor response carries no chunk
list, `download_file` does not return a failure value — the `for` loop
raises `TypeError` and the exception escapes to the caller. -/
theorem download_meta_failure_escapes :
    (download_file [] (Except.ok ⟨none⟩) (fun _ => Except.error "net") none "notes.txt").1
      = Except.error "TypeError: NoneType object is not iterable" := rfl

/-- C3 (amended): a metadata request that raises propagates its exception;
a descriptor without a chunk list raises `TypeError`; a chunk-fetch
exception propagates; a merge failure is returned as `merge_chunks`' error
string wrapped like a success value; only when everything succeeds is the
final file name returned. -/
theorem download_file_failure_modes (fs fs₁ fs₂ : FS)
    (cr : Nat → Except String Bytes) (mf : Option (Nat × String))
    (fn e msg em : String) (entries entriesE : List ChunkEntry)
    (hfetch : fetchChunks cr (beforeFirstDot fn) fs entries = (fs₁, none))
    (hfetchE : fetchChunks cr (beforeFirstDot fn) fs entriesE = (fs₂, some em)) :
    download_file fs (Except.error e) cr mf fn = (Except.error e, fs)
    ∧ download_file fs (Except.ok ⟨none⟩) cr mf fn
        = (Except.error "TypeError: NoneType object is not iterable", fs)
    ∧ download_file fs (Except.ok ⟨some entriesE⟩) cr mf fn = (Except.error em, fs₂)
    ∧ download_file fs (Except.ok ⟨some entries⟩) cr (some (0, msg)) fn
        = (Except.ok msg, fs₁)
    ∧ (download_file fs (Except.ok ⟨some entries⟩) cr none fn).1 = Except.ok fn := by
  refine ⟨rfl, rfl, ?_, ?_, ?_⟩
  · simp only [download_file, hfetchE]
  · simp only [download_file, hfetch, merge_chunks]
  · simp only [download_file, hfetch]
    rw [merge_chunks_fst_none]

/-- Witness for the amended C3 at concrete responses: one descriptor whose
single chunk fetch succeeds and one whose fetch raises. -/
theorem download_file_failure_modes_witness :
    (fetchChunks (fun i => if i = 7 then Except.ok [3, 4] else Except.error "net")
        (beforeFirstDot "notes.txt") [] [⟨7, "notes.txt_1.bin"⟩]
        = ([("notes/notes.txt_1.bin", [3, 4])], none)
      ∧ fetchChunks (fun i => if i = 7 then Except.ok [3, 4] else Except.error "net")
          (beforeFirstDot "notes.txt") [] [⟨9, "x"⟩] = ([], some "net"))
    ∧ (download_file [] (Except.error "boom")
          (fun i => if i = 7 then Except.ok [3, 4] else Except.error "net") none "notes.txt"
        = (Except.error "boom", [])
      ∧ download_file [] (Except.ok ⟨none⟩)
          (fun i => if i = 7 then Except.ok [3, 4] else Except.error "net") none "notes.txt"
        = (Except.error "TypeError: NoneType object is not iterable", [])
      ∧ download_file [] (Except.ok ⟨some [⟨9, "x"⟩]⟩)
          (fun i => if i = 7 then Except.ok [3, 4] else Except.error "net") none "notes.txt"
        = (Except.error "net", [])
      ∧ download_file [] (Except.ok ⟨some [⟨7, "notes.txt_1.bin"⟩]⟩)
          (fun i => if i = 7 then Except.ok [3, 4] else Except.error "net")
          (some (0, "mergefail")) "notes.txt"
        = (Except.ok "mergefail", [("notes/notes.txt_1.bin", [3, 4])])
      ∧ (download_file [] (Except.ok ⟨some [⟨7, "notes.txt_1.bin"⟩]⟩)
          (fun i => if i = 7 then Except.ok [3, 4] else Except.error "net")
          none "notes.txt").1 = Except.ok "notes.txt") :=
  ⟨⟨by rfl, by rfl⟩,
    download_file_failure_modes [] [("notes/notes.txt_1.bin", [3, 4])] []
      (fun i => if i = 7 then Except.ok [3, 4] else Except.error "net") none
      "notes.txt" "boom" "mergefail" "net" [⟨7, "notes.txt_1.bin"⟩] [⟨9, "x"⟩]
      (by rfl) (by rfl)⟩

/-- C4: Upload short-circuit.  When the metadata-registration response
carries no server-assigned `fileId`, `upload_file` returns the failure
value `None` immediately, with no `split_file` call and no chunk upload:
the performed operations are exactly the registration itself. -/
theorem upload_no_fileId_short_circuit (fs : FS) (addResp : AddFileResp)
    (mg : Option String) (sf : Option Nat) (pr : Nat → String → HttpResp)
    (uf : Option Nat) (p dirp : String) (data : Bytes)
    (hfile : fsLookup fs p = some data)
    (hid : addResp.fileId = none) :
    upload_file fs addResp mg sf pr uf p dirp = (Except.ok none, [Ev.addFile]) := by
  simp only [upload_file, hfile, add_file, hid]

/-- Witness for C4: a registration response with only an error message. -/
theorem upload_no_fileId_short_circuit_witness :
    (fsLookup [("f", [1, 2])] "f" = some [1, 2]
      ∧ (AddFileResp.mk none (some "denied")).fileId = none)
    ∧ upload_file [("f", [1, 2])] (AddFileResp.mk none (some "denied")) none none
        (fun _ _ => ⟨200, "ok"⟩) none "f" "~"
      = (Except.ok none, [Ev.addFile]) :=
  ⟨⟨by decide, by decide⟩,
    upload_no_fileId_short_circuit [("f", [1, 2])] (AddFileResp.mk none (some "denied"))
      none none (fun _ _ => ⟨200, "ok"⟩) none "f" "~" [1, 2] (by decide) (by decide)⟩

/-- C5: Split short-circuit.  When `split_file` fails (returns `None`
because of an I/O exception during the split), `upload_file` reports
overall failure (`None`) and performs no chunk upload: the operations stop
at the split. -/
theorem upload_split_failure_short_circuit (fs fs₁ : FS) (addResp : AddFileResp)
    (mg : Option String) (sf : Option Nat) (pr : Nat → String → HttpResp)
    (uf : Option Nat) (p dirp : String) (data : Bytes) (fid : Nat)
    (hfile : fsLookup fs p = some data)
    (hid : addResp.fileId = some fid)
    (hsplit : split_file fs sf p (1024 * 1024 * 20) (natStr fid) = (none, fs₁)) :
    upload_file fs addResp mg sf pr uf p dirp = (Except.ok none, [Ev.addFile, Ev.split]) := by
  simp only [upload_file, hfile, add_file, hid, hsplit]

/-- Witness for C5: an exception at the start of the split (`fault 0`)
makes the upload fail with no chunk posted. -/
theorem upload_split_failure_short_circuit_witness :
    (fsLookup [("f", [9])] "f" = some [9]
      ∧ (AddFileResp.mk (some 5) none).fileId = some 5
      ∧ split_file [("f", [9])] (some 0) "f" (1024 * 1024 * 20) (natStr 5)
          = (none, [("f", [9])]))
    ∧ upload_file [("f", [9])] (AddFileResp.mk (some 5) none) none (some 0)
        (fun _ _ => ⟨200, "ok"⟩) none "f" "~"
      = (Except.ok none, [Ev.addFile, Ev.split]) :=
  ⟨⟨by decide, by decide, by decide⟩,
    upload_split_failure_short_circuit [("f", [9])] [("f", [9])]
      (AddFileResp.mk (some 5) none) none (some 0) (fun _ _ => ⟨200, "ok"⟩) none
      "f" "~" [9] 5 (by decide) (by decide) (by decide)⟩

/-- C8: A chunk-upload failure aborts the whole upload.  When the `j`-th
POST of the chunk loop raises, `upload_file` returns the failure value
`None` (never the registration record), the posts performed are exactly
the first `j - 1` listed chunks — each attempted once, with no retry of
the failed call and no rollback of the already-posted ones. -/
theorem upload_chunk_failure_aborts (fs fs₁ : FS) (addResp : AddFileResp)
    (mg : Option String) (sf : Option Nat) (pr : Nat → String → HttpResp)
    (p dirp d : String) (data : Bytes) (fid j : Nat)
    (hfile : fsLookup fs p = some data)
    (hid : addResp.fileId = some fid)
    (hsplit : split_file fs sf p (1024 * 1024 * 20) (natStr fid) = (some d, fs₁))
    (hj₁ : 1 ≤ j) (hj₂ : j ≤ (globList fs₁ d).length) :
    upload_file fs addResp mg sf pr (some j) p dirp
      = (Except.ok none,
          [Ev.addFile, Ev.split] ++ ((globList fs₁ d).take (j - 1)).map Ev.postChunk) := by
  simp only [upload_file, hfile, add_file, hid, hsplit, handle_uploading]
  rw [uploadLoop_fault pr fid j (globList fs₁ d) 1 [] hj₁ (by omega)]
  simp

/-- Witness for C8: the single chunk's POST raises (`j = 1`); the upload
returns `None` and no chunk was posted. -/
theorem upload_chunk_failure_aborts_witness :
    (fsLookup [("f", [9])] "f" = some [9]
      ∧ (AddFileResp.mk (some 5) none).fileId = some 5
      ∧ split_file [("f", [9])] none "f" (1024 * 1024 * 20) (natStr 5)
          = (some "5", [("f", [9]), ("5/f_1.bin", [9])])
      ∧ 1 ≤ 1
      ∧ 1 ≤ (globList [("f", [9]), ("5/f_1.bin", [9])] "5").length)
    ∧ upload_file [("f", [9])] (AddFileResp.mk (some 5) none) none none
        (fun _ _ => ⟨200, "ok"⟩) (some 1) "f" "~"
      = (Except.ok none,
          [Ev.addFile, Ev.split]
            ++ ((globList [("f", [9]), ("5/f_1.bin", [9])] "5").take (1 - 1)).map
              Ev.postChunk) :=
  ⟨⟨by decide, by decide, by decide, by decide, by decide⟩,
    upload_chunk_failure_aborts [("f", [9])] [("f", [9]), ("5/f_1.bin", [9])]
      (AddFileResp.mk (some 5) none) none none (fun _ _ => ⟨200, "ok"⟩)
      "f" "~" "5" [9] 5 1 (by decide) (by decide) (by decide) (by decide) (by decide)⟩

/-- C9: `handle_uploading` depends only on whether an exception is raised:
its result is the same under any two HTTP response oracles, a run with no
exception returns `True`, and a fault that would only strike past the end
of the chunk listing (so no exception is actually raised) also returns
`True` — a server-side rejection delivered as a normal error response is
reported as success. -/
theorem handle_uploading_ignores_response (fs : FS) (pr pr' : Nat → String → HttpResp)
    (fault : Option Nat) (d : String) (pid j : Nat)
    (hj : (globList fs d).length < j) :
    handle_uploading fs pr fault d pid = handle_uploading fs pr' fault d pid
    ∧ (handle_uploading fs pr none d pid).1 = true
    ∧ (handle_uploading fs pr (some j) d pid).1 = true := by
  refine ⟨uploadLoop_resp pr pr' pid fault (globList fs d) 1 [], ?_, ?_⟩
  · rw [handle_uploading, uploadLoop_none pr pid (globList fs d) 1 []]
  · rw [handle_uploading, uploadLoop_miss pr pid j (globList fs d) 1 [] (by omega)]

/-- Witness for C9: an HTTP 500 response body changes nothing; the run
returns `True`. -/
theorem handle_uploading_ignores_response_witness :
    ((globList [("c/a.bin", [1])] "c").length < 2)
    ∧ (handle_uploading [("c/a.bin", [1])] (fun _ _ => ⟨200, "ok"⟩) none "c" 3
        = handle_uploading [("c/a.bin", [1])] (fun _ _ => ⟨500, "rejected"⟩) none "c" 3
      ∧ (handle_uploading [("c/a.bin", [1])] (fun _ _ => ⟨200, "ok"⟩) none "c" 3).1 = true
      ∧ (handle_uploading [("c/a.bin", [1])] (fun _ _ => ⟨200, "ok"⟩) (some 2) "c" 3).1
          = true) :=
  ⟨by decide,
    handle_uploading_ignores_response [("c/a.bin", [1])] (fun _ _ => ⟨200, "ok"⟩)
      (fun _ _ => ⟨500, "rejected"⟩) none "c" 3 2 (by decide)⟩

end StorageClient
